import Mathlib

/-!
Verification of the document-conversion pipeline of the pdf-tools-suite
repository (src/utils/fileProcessors.js, enhanced variant, which the spec
declares authoritative) against its natural-language specification.

The JavaScript source is shallowly embedded: PDF documents are modelled as
ordered lists of pages over an arbitrary page type, byte blobs are kept
abstract, numbers are rationals, and fallible operations return
Except String.  External collaborators (pdf.js rendering, mammoth
conversion, the DOM) are abstract function parameters, so theorems
quantifying over them hold for every collaborator behaviour.
-/

namespace PdfTools

/-- A PDF document as manipulated through pdf-lib: an ordered sequence of
pages.  Pages are abstract (`α`); copying a page is modelled as reusing the
value, which preserves identity of content while the source object model
creates a fresh object. -/
structure PDFDocument (α : Type) where
  pages : List α
deriving Repr, DecidableEq

/-- An input file as received by the per-tool processors: its name together
with the already-loaded document (`PDFDocument.load` of the raw bytes; the
corrupt-bytes failure path of the loader is outside the claims considered
here). -/
structure SourceFile (α : Type) where
  name : String
  doc : PDFDocument α
deriving Repr, DecidableEq

/-- One output artifact of a pipeline run, as produced by the processors in
fileProcessors.js: the output file name and the document serialized into the
blob.  Serialization is deterministic (spec section 4.1), so the document
itself stands for the blob; the byte size and info string carry no further
information for the claims. -/
structure ProcessingResult (α : Type) where
  name : String
  doc : PDFDocument α
deriving Repr, DecidableEq

/-- Model of pdf-lib `copyPages(source, pageIndices)`: each requested
0-based index must be in range, otherwise the call fails; the copied pages
come back in the requested order. -/
def copyPages {α : Type} (src : PDFDocument α) : List Nat → Except String (List α)
  | [] => .ok []
  | i :: is =>
    match src.pages[i]? with
    | some p =>
      match copyPages src is with
      | .ok ps => .ok (p :: ps)
      | .error e => .error e
    | none => .error "Invalid page index requested"

/-- Model of `enhancedMergePdfs` loop body: for each file in order, load it,
copy all of its pages (`donorDoc.getPageIndices()` is `[0, ..., n-1]`) into
the merged document, and `addPage` each copied page in order. -/
def mergeLoop {α : Type} : List (PDFDocument α) → PDFDocument α → Except String (PDFDocument α)
  | [], acc => .ok acc
  | f :: fs, acc =>
    match copyPages f (List.range f.pages.length) with
    | .ok copied => mergeLoop fs ⟨acc.pages ++ copied⟩
    | .error e => .error e

/-- Model of `enhancedMergePdfs` (fileProcessors.js lines 669-716): merge the
input documents in order into one fresh document and return a single result
named `merged_document_<date>.pdf`; the date string is an external input. -/
def enhancedMergePdfs {α : Type} (today : String) (files : List (PDFDocument α)) :
    Except String (List (ProcessingResult α)) :=
  match mergeLoop files ⟨[]⟩ with
  | .ok merged => .ok [⟨"merged_document_" ++ today ++ ".pdf", merged⟩]
  | .error e => .error ("Enhanced merge failed: " ++ e)

theorem copyPages_all {α : Type} (l : List α) (n k : Nat) (h : k + n ≤ l.length) :
    copyPages ⟨l⟩ (List.range' k n) = .ok ((l.drop k).take n) := by
  induction n generalizing k with
  | zero => simp [copyPages, List.range']
  | succ n ih =>
    have hk : k < l.length := by omega
    have hget : l[k]? = some (l.get ⟨k, hk⟩) := by
      simp [List.getElem?_eq_getElem hk]
    rw [List.range']
    simp only [copyPages, hget]
    rw [ih (k + 1) (by omega)]
    have hdrop : l.drop k = l.get ⟨k, hk⟩ :: l.drop (k + 1) := by
      rw [List.drop_eq_getElem_cons hk]
      rfl
    rw [hdrop]
    rfl

theorem mergeLoop_ok {α : Type} (files : List (PDFDocument α)) (acc : PDFDocument α) :
    mergeLoop files acc = .ok ⟨acc.pages ++ (files.map PDFDocument.pages).flatten⟩ := by
  induction files generalizing acc with
  | nil => simp [mergeLoop]
  | cons f fs ih =>
    have hc : copyPages f (List.range f.pages.length) = .ok f.pages := by
      have := copyPages_all (l := f.pages) f.pages.length 0 (by omega)
      simpa [List.range_eq_range'] using this
    simp [mergeLoop, hc, ih]

/-- C2: merging documents in order produces exactly one output document whose
page sequence is the concatenation of the inputs' page sequences in order
(hence its page count is the sum of the input page counts), with no page
reordered, dropped, or duplicated. -/
theorem merge_concat_pages {α : Type} (today : String) (files : List (PDFDocument α)) :
    enhancedMergePdfs today files =
      .ok [⟨"merged_document_" ++ today ++ ".pdf", ⟨(files.map PDFDocument.pages).flatten⟩⟩] ∧
    (files.map PDFDocument.pages).flatten.length = (files.map (·.pages.length)).sum := by
  constructor
  · simp [enhancedMergePdfs, mergeLoop_ok]
  · simp only [List.length_flatten, List.map_map]
    rfl

/-! ### Split (enhancedSplitPdf, fileProcessors.js lines 718-790) -/

/-- One entry of the `options.ranges` array read by the range branch of
`enhancedSplitPdf`; the code reads `range.from` and `range.to`, both
optional, and `parseInt(range.from || 1, 10)` turns an absent or zero value
into the default. -/
structure SplitRange where
  rangeFrom : Option Int
  rangeTo : Option Int
deriving Repr, DecidableEq

/-- The split-relevant fields of ProcessingOptions as read by
`enhancedSplitPdf`.  The function reads only `options.splitType` and
`options.ranges`; `fromPage` and `toPage` are carried because the UI
(ToolOptions.js `renderSplitOptions`) supplies them, but no line of
`enhancedSplitPdf` consults them. -/
structure SplitOptions where
  splitType : Option String
  ranges : Option (List SplitRange)
  fromPage : Option Int
  toPage : Option Int
deriving Repr, DecidableEq

/-- Model of the JavaScript truthiness default `options.splitType || "pages"`:
an absent or empty string falls back to "pages". -/
def splitTypeOf (options : SplitOptions) : String :=
  match options.splitType with
  | none => "pages"
  | some s => if s = "" then "pages" else s

/-- Model of the JavaScript truthiness default `parseInt(v || d, 10)` used for
`range.from` and `range.to`: absent or zero values take the default. -/
def intOrDefault (v : Option Int) (d : Int) : Int :=
  match v with
  | none => d
  | some x => if x = 0 then d else x

/-- Model of `file.name.replace(/\.pdf$/i, "")`: strip one trailing ".pdf"
extension, matched case-insensitively (working on the character list keeps
the definition kernel-computable). -/
def stripPdfExt (name : String) : String :=
  let chars := name.data
  if (chars.drop (chars.length - 4)).map Char.toLower = ['.', 'p', 'd', 'f'] then
    String.mk (chars.take (chars.length - 4))
  else name

/-- Model of `pageNum.toString().padStart(3, "0")`. -/
def padStart3 (n : Nat) : String :=
  let s := toString n
  if s.length < 3 then String.mk (List.replicate (3 - s.length) '0') ++ s else s

/-- Model of the range branch loop of `enhancedSplitPdf` (lines 734-760):
for each requested range clamp `from` up to 1 and `to` down to the page
count, reject inverted or out-of-range results, and emit one result named
`<base>_pages_<from>_to_<to>.pdf` holding exactly the pages of that range. -/
def splitRangeLoop {α : Type} (src : PDFDocument α) (baseName : String) (totalPages : Nat) :
    List SplitRange → Except String (List (ProcessingResult α))
  | [] => .ok []
  | r :: rs =>
    let f : Int := max 1 (intOrDefault r.rangeFrom 1)
    let t : Int := min (totalPages : Int) (intOrDefault r.rangeTo (totalPages : Int))
    if f > t ∨ f < 1 ∨ t > (totalPages : Int) then
      .error ("Invalid range " ++ toString f ++ "-" ++ toString t)
    else
      let pageIndices := (List.range (t - f + 1).toNat).map (fun idx => (f - 1).toNat + idx)
      match copyPages src pageIndices with
      | .error e => .error e
      | .ok pages =>
        match splitRangeLoop src baseName totalPages rs with
        | .error e => .error e
        | .ok rest =>
          .ok (⟨baseName ++ "_pages_" ++ toString f ++ "_to_" ++ toString t ++ ".pdf",
                ⟨pages⟩⟩ :: rest)

/-- Model of the individual-pages branch of `enhancedSplitPdf`
(lines 762-781): for each 1-based page number `p` of the source, copy page
`p - 1` into a fresh document and emit a result named
`<base>_page_<p padded to 3 digits>.pdf`. -/
def splitPagesLoop {α : Type} (src : PDFDocument α) (baseName : String) :
    List Nat → Except String (List (ProcessingResult α))
  | [] => .ok []
  | p :: ps =>
    match copyPages src [p - 1] with
    | .error e => .error e
    | .ok pages =>
      match splitPagesLoop src baseName ps with
      | .error e => .error e
      | .ok rest =>
        .ok (⟨baseName ++ "_page_" ++ padStart3 p ++ ".pdf", ⟨pages⟩⟩ :: rest)

/-- Body of `enhancedSplitPdf` inside its try block: the range branch runs
only when `splitType === "range"` and `options.ranges` is present; every
other combination, in particular splitType "range" without a `ranges` field,
takes the individual-pages branch. -/
def enhancedSplitPdfCore {α : Type} (file : SourceFile α) (options : SplitOptions) :
    Except String (List (ProcessingResult α)) :=
  let totalPages := file.doc.pages.length
  let baseName := stripPdfExt file.name
  if splitTypeOf options = "range" ∧ options.ranges.isSome then
    splitRangeLoop file.doc baseName totalPages (options.ranges.getD [])
  else
    splitPagesLoop file.doc baseName (List.range' 1 totalPages)

/-- Model of `enhancedSplitPdf` (lines 718-790): run the core and wrap any
failure in the catch-all rethrow `Enhanced split failed: ...`; on failure no
ProcessingResult is returned. -/
def enhancedSplitPdf {α : Type} (file : SourceFile α) (options : SplitOptions) :
    Except String (List (ProcessingResult α)) :=
  match enhancedSplitPdfCore file options with
  | .ok r => .ok r
  | .error e => .error ("Enhanced split failed: " ++ e)

instance {ε α : Type} [DecidableEq ε] [DecidableEq α] : DecidableEq (Except ε α) := fun a b =>
  match a, b with
  | .ok x, .ok y =>
    if h : x = y then .isTrue (by rw [h]) else .isFalse (fun he => h (Except.ok.inj he))
  | .error x, .error y =>
    if h : x = y then .isTrue (by rw [h]) else .isFalse (fun he => h (Except.error.inj he))
  | .ok _, .error _ => .isFalse (fun he => Except.noConfusion he)
  | .error _, .ok _ => .isFalse (fun he => Except.noConfusion he)

theorem splitPagesLoop_ok {α : Type} (src : PDFDocument α) (baseName : String)
    (k n : Nat) (h : k + n ≤ src.pages.length) :
    ∃ rs, splitPagesLoop src baseName (List.range' (k + 1) n) = .ok rs ∧
      rs.map (fun r => r.doc.pages) = ((src.pages.drop k).take n).map (fun p => [p]) := by
  induction n generalizing k with
  | zero => exact ⟨[], by simp [splitPagesLoop, List.range']⟩
  | succ n ih =>
    have hk : k < src.pages.length := by omega
    obtain ⟨rest, hrest, hmap⟩ := ih (k + 1) (by omega)
    refine ⟨⟨baseName ++ "_page_" ++ padStart3 (k + 1) ++ ".pdf", ⟨[src.pages.get ⟨k, hk⟩]⟩⟩ :: rest,
      ?_, ?_⟩
    · rw [List.range']
      simp only [splitPagesLoop, copyPages, Nat.add_sub_cancel,
        List.getElem?_eq_getElem hk, hrest]
      rfl
    · have hdrop : src.pages.drop k = src.pages.get ⟨k, hk⟩ :: src.pages.drop (k + 1) := by
        rw [List.drop_eq_getElem_cons hk]; rfl
      simp only [List.map_cons, hmap, hdrop, List.take_succ_cons]

/-- C10: invoking split with splitType "range" but no `ranges` field (as the
UI does, supplying only fromPage/toPage) does not fail: it silently takes
the split-into-individual-pages branch, returning one single-page result per
page of the source document, in order. -/
theorem split_range_without_ranges_falls_back {α : Type} (file : SourceFile α)
    (fp tp : Option Int) :
    ∃ rs, enhancedSplitPdf file ⟨some "range", none, fp, tp⟩ = .ok rs ∧
      rs.map (fun r => r.doc.pages) = file.doc.pages.map (fun p => [p]) := by
  obtain ⟨rs, hrs, hmap⟩ := splitPagesLoop_ok file.doc (stripPdfExt file.name) 0
    file.doc.pages.length (by omega)
  refine ⟨rs, ?_, by simpa using hmap⟩
  unfold enhancedSplitPdf enhancedSplitPdfCore
  rw [if_neg (fun hc => by simpa using hc.2)]
  rw [show (0 : Nat) + 1 = 1 from rfl] at hrs
  rw [hrs]

/-- C1 counterexample: a 3-page document split with
`{splitType: "range", fromPage: 1, toPage: 2}` (the shape the UI produces,
with no `ranges` field) does not yield one 2-page output document; the code
ignores fromPage/toPage and produces three single-page results. -/
theorem split_range_fromPage_counterexample :
    enhancedSplitPdf (α := Nat) ⟨"doc.pdf", ⟨[0, 1, 2]⟩⟩ ⟨some "range", none, some 1, some 2⟩ =
      .ok [⟨"doc_page_001.pdf", ⟨[0]⟩⟩, ⟨"doc_page_002.pdf", ⟨[1]⟩⟩,
           ⟨"doc_page_003.pdf", ⟨[2]⟩⟩] ∧
    ([⟨"doc_page_001.pdf", ⟨[0]⟩⟩, ⟨"doc_page_002.pdf", ⟨[1]⟩⟩,
      ⟨"doc_page_003.pdf", ⟨[2]⟩⟩] : List (ProcessingResult Nat)).length ≠ 1 := by
  exact ⟨by decide, by decide⟩

/-- C1 amended: when the page range is supplied the way the code actually
reads it, through `options.ranges = [{from, to}]`, every valid range
`1 ≤ from ≤ to ≤ pageCount` yields exactly one result whose document holds
exactly pages `from..to` in original order, so its page count is
`to - from + 1`; the fromPage/toPage fields are irrelevant. -/
theorem split_range_via_ranges {α : Type} (file : SourceFile α) (f t : Int)
    (fp tp : Option Int) (h1 : 1 ≤ f) (h2 : f ≤ t) (h3 : t ≤ (file.doc.pages.length : Int)) :
    enhancedSplitPdf file ⟨some "range", some [⟨some f, some t⟩], fp, tp⟩ =
      .ok [⟨stripPdfExt file.name ++ "_pages_" ++ toString f ++ "_to_" ++ toString t ++ ".pdf",
            ⟨(file.doc.pages.drop (f - 1).toNat).take (t - f + 1).toNat⟩⟩] ∧
    ((file.doc.pages.drop (f - 1).toNat).take (t - f + 1).toNat).length = (t - f + 1).toNat := by
  obtain ⟨name, ⟨pages⟩⟩ := file
  simp only [SourceFile.doc, PDFDocument.pages] at h3 ⊢
  have hfd : intOrDefault (some f) 1 = f := by
    show (if f = 0 then 1 else f) = f
    rw [if_neg (by omega)]
  have htd : intOrDefault (some t) ((pages.length : Nat) : Int) = t := by
    show (if t = 0 then ((pages.length : Nat) : Int) else t) = t
    rw [if_neg (by omega)]
  have hf : max 1 (intOrDefault (some f) 1) = f := by
    rw [hfd]
    omega
  have ht : min ((pages.length : Nat) : Int) (intOrDefault (some t) ((pages.length : Nat) : Int)) =
      t := by
    rw [htd]
    omega
  have hcopy : copyPages (⟨pages⟩ : PDFDocument α)
      (List.range' (f - 1).toNat ((t - f + 1).toNat)) =
      .ok ((pages.drop (f - 1).toNat).take (t - f + 1).toNat) :=
    copyPages_all pages ((t - f + 1).toNat) ((f - 1).toNat) (by omega)
  have hcore : enhancedSplitPdfCore (α := α) ⟨name, ⟨pages⟩⟩
      ⟨some "range", some [⟨some f, some t⟩], fp, tp⟩ =
      .ok [⟨stripPdfExt name ++ "_pages_" ++ toString f ++ "_to_" ++ toString t ++ ".pdf",
            ⟨(pages.drop (f - 1).toNat).take (t - f + 1).toNat⟩⟩] := by
    unfold enhancedSplitPdfCore
    rw [if_pos ⟨rfl, rfl⟩]
    simp only [Option.getD_some, splitRangeLoop, hf, ht]
    rw [if_neg (by push_neg; exact ⟨h2, h1, h3⟩)]
    rw [show ((List.range (t - f + 1).toNat).map (fun idx => (f - 1).toNat + idx)) =
        List.range' (f - 1).toNat ((t - f + 1).toNat) from (List.range'_eq_map_range _ _).symm]
    rw [hcopy]
  refine ⟨?_, ?_⟩
  · unfold enhancedSplitPdf
    rw [hcore]
  · rw [List.length_take, List.length_drop]
    omega

/-- C1 witness: a concrete 3-page document with the valid range 1..2 through
`options.ranges`, giving one result holding pages 1 and 2. -/
theorem split_range_via_ranges_witness :
    (1 : Int) ≤ 1 ∧ (1 : Int) ≤ 2 ∧
      (2 : Int) ≤ (((⟨"doc.pdf", ⟨[10, 20, 30]⟩⟩ : SourceFile Nat).doc.pages.length : Int)) ∧
    (enhancedSplitPdf (α := Nat) ⟨"doc.pdf", ⟨[10, 20, 30]⟩⟩
        ⟨some "range", some [⟨some 1, some 2⟩], none, none⟩ =
      .ok [⟨stripPdfExt "doc.pdf" ++ "_pages_" ++ toString (1 : Int) ++ "_to_" ++
              toString (2 : Int) ++ ".pdf",
            ⟨(([10, 20, 30] : List Nat).drop ((1 : Int) - 1).toNat).take
                ((2 : Int) - 1 + 1).toNat⟩⟩] ∧
      ((([10, 20, 30] : List Nat).drop ((1 : Int) - 1).toNat).take
          ((2 : Int) - 1 + 1).toNat).length = ((2 : Int) - 1 + 1).toNat) :=
  ⟨by decide, by decide, by decide,
    split_range_via_ranges ⟨"doc.pdf", ⟨[10, 20, 30]⟩⟩ 1 2 none none
      (by decide) (by decide) (by decide)⟩

/-- C4: splitting a 10-page document with the inverted range from=5, to=2
(supplied through `options.ranges` as the code reads ranges) fails with the
invalid-range error and produces no ProcessingResult. -/
theorem split_inverted_range_fails {α : Type} (file : SourceFile α) (fp tp : Option Int)
    (h : file.doc.pages.length = 10) :
    enhancedSplitPdf file ⟨some "range", some [⟨some 5, some 2⟩], fp, tp⟩ =
      .error "Enhanced split failed: Invalid range 5-2" := by
  obtain ⟨name, ⟨pages⟩⟩ := file
  simp only [SourceFile.doc, PDFDocument.pages] at h
  have hcore : enhancedSplitPdfCore (α := α) ⟨name, ⟨pages⟩⟩
      ⟨some "range", some [⟨some 5, some 2⟩], fp, tp⟩ =
      .error "Invalid range 5-2" := by
    unfold enhancedSplitPdfCore
    rw [if_pos ⟨rfl, rfl⟩]
    simp only [Option.getD_some, splitRangeLoop, h]
    rw [if_pos (by norm_num [intOrDefault])]
    exact congrArg Except.error (by decide)
  unfold enhancedSplitPdf
  rw [hcore]
  exact congrArg Except.error (by decide)

/-- C4 witness: a concrete 10-page document with the inverted range 5..2. -/
theorem split_inverted_range_fails_witness :
    ((⟨"doc.pdf", ⟨List.range 10⟩⟩ : SourceFile Nat).doc.pages.length = 10) ∧
    enhancedSplitPdf (α := Nat) ⟨"doc.pdf", ⟨List.range 10⟩⟩
        ⟨some "range", some [⟨some 5, some 2⟩], none, none⟩ =
      .error "Enhanced split failed: Invalid range 5-2" :=
  ⟨by decide, split_inverted_range_fails ⟨"doc.pdf", ⟨List.range 10⟩⟩ none none (by decide)⟩

/-- C8 counterexample: split-into-pages of a 3-page file named doc.pdf names
its outputs with zero-padded page numbers (`doc_page_001.pdf`), not
`doc_page_1.pdf` as claimed. -/
theorem split_pages_naming_counterexample :
    enhancedSplitPdf (α := Nat) ⟨"doc.pdf", ⟨[0, 1, 2]⟩⟩ ⟨some "pages", none, none, none⟩ =
      .ok [⟨"doc_page_001.pdf", ⟨[0]⟩⟩, ⟨"doc_page_002.pdf", ⟨[1]⟩⟩,
           ⟨"doc_page_003.pdf", ⟨[2]⟩⟩] ∧
    ("doc_page_001.pdf" : String) ≠ "doc_page_1.pdf" := by
  exact ⟨by decide, by decide⟩

theorem splitPagesLoop_three {α : Type} (base : String) (a b c : α) :
    splitPagesLoop (α := α) ⟨[a, b, c]⟩ base [1, 2, 3] =
      .ok [⟨base ++ "_page_" ++ "001" ++ ".pdf", ⟨[a]⟩⟩,
           ⟨base ++ "_page_" ++ "002" ++ ".pdf", ⟨[b]⟩⟩,
           ⟨base ++ "_page_" ++ "003" ++ ".pdf", ⟨[c]⟩⟩] := rfl

/-- C8 amended: a 3-page input processed with splitType "pages" returns
exactly 3 results, each a single-page document holding the corresponding
source page in order, named with 3-digit zero-padded page numbers
`<base>_page_001.pdf`, `<base>_page_002.pdf`, `<base>_page_003.pdf`, where
`<base>` is the file name without its .pdf extension. -/
theorem split_pages_three {α : Type} (name : String) (a b c : α) :
    enhancedSplitPdf (α := α) ⟨name, ⟨[a, b, c]⟩⟩ ⟨some "pages", none, none, none⟩ =
      .ok [⟨stripPdfExt name ++ "_page_" ++ "001" ++ ".pdf", ⟨[a]⟩⟩,
           ⟨stripPdfExt name ++ "_page_" ++ "002" ++ ".pdf", ⟨[b]⟩⟩,
           ⟨stripPdfExt name ++ "_page_" ++ "003" ++ ".pdf", ⟨[c]⟩⟩] := by
  unfold enhancedSplitPdf enhancedSplitPdfCore
  rw [if_neg (fun hc => by simpa [splitTypeOf] using hc.1)]
  rw [show List.range' 1 (PDFDocument.mk [a, b, c]).pages.length = [1, 2, 3] from rfl]
  rw [splitPagesLoop_three]

/-! ### PDF to images (enhancedPdfToImages, fileProcessors.js lines 861-956) -/

/-- The fields of ProcessingOptions read by `enhancedPdfToImages` that the
page-limit claim depends on: `options.maxPages` (JavaScript truthiness
default 100) and `options.imageFormat` (default png, lowercased). -/
structure ImagesOptions where
  maxPages : Option Nat
  imageFormat : Option String
deriving Repr, DecidableEq

/-- Model of `const MAX_PAGES = options.maxPages || 100`: absent or zero
falls back to 100. -/
def maxPagesLimit (options : ImagesOptions) : Nat :=
  match options.maxPages with
  | none => 100
  | some m => if m = 0 then 100 else m

/-- Model of `(options.imageFormat || "png").toLowerCase()`. -/
def imageFormatOf (options : ImagesOptions) : String :=
  match options.imageFormat with
  | none => "png"
  | some s => if s = "" then "png" else String.mk (s.data.map Char.toLower)

/-- One rendered page image: output name and the encoded pixel blob. -/
structure ImageResult (β : Type) where
  name : String
  blob : β
deriving Repr, DecidableEq

/-- Model of `enhancedPdfToImages` (lines 861-956): when the page count
exceeds MAX_PAGES the function throws before the rendering loop starts, so
no page is rendered and no partial result exists; otherwise each page is
rendered in order through the abstract rasterizing collaborator `render`
and named `<base>_page_<NNN>.<format>`. -/
def enhancedPdfToImages {α β : Type} (render : α → β) (file : SourceFile α)
    (options : ImagesOptions) : Except String (List (ImageResult β)) :=
  let numPages := file.doc.pages.length
  if numPages > maxPagesLimit options then
    .error ("Enhanced PDF→Images failed: PDF has " ++ toString numPages ++
      " pages - exceeds limit of " ++ toString (maxPagesLimit options))
  else
    .ok (file.doc.pages.enum.map fun pr =>
      ⟨stripPdfExt file.name ++ "_page_" ++ padStart3 (pr.1 + 1) ++ "." ++ imageFormatOf options,
        render pr.2⟩)

/-- C5: rasterizing a PDF whose page count exceeds the configured maximum
fails with the page-limit error and returns zero partial results; the
failure does not depend on the rasterizing collaborator at all, so it
happens before any page is rendered.  The configured maximum defaults to
100 when `options.maxPages` is absent. -/
theorem pdf_to_images_page_limit {α β : Type} (render : α → β) (file : SourceFile α)
    (options : ImagesOptions) (h : file.doc.pages.length > maxPagesLimit options) :
    enhancedPdfToImages render file options =
      .error ("Enhanced PDF→Images failed: PDF has " ++ toString file.doc.pages.length ++
        " pages - exceeds limit of " ++ toString (maxPagesLimit options)) ∧
    maxPagesLimit ⟨none, options.imageFormat⟩ = 100 := by
  constructor
  · unfold enhancedPdfToImages
    rw [if_pos h]
  · rfl

/-- C5 witness: a 101-page document with default options exceeds the default
limit of 100 and yields the error, independent of the renderer. -/
theorem pdf_to_images_page_limit_witness :
    ((⟨"f.pdf", ⟨List.range 101⟩⟩ : SourceFile Nat).doc.pages.length >
      maxPagesLimit ⟨none, none⟩) ∧
    (enhancedPdfToImages (fun _ : Nat => (0 : Nat)) ⟨"f.pdf", ⟨List.range 101⟩⟩ ⟨none, none⟩ =
      .error ("Enhanced PDF→Images failed: PDF has " ++
        toString ((⟨"f.pdf", ⟨List.range 101⟩⟩ : SourceFile Nat).doc.pages.length) ++
        " pages - exceeds limit of " ++ toString (maxPagesLimit ⟨none, none⟩)) ∧
      maxPagesLimit ⟨none, (⟨none, none⟩ : ImagesOptions).imageFormat⟩ = 100) :=
  ⟨by decide,
    pdf_to_images_page_limit (fun _ : Nat => (0 : Nat)) ⟨"f.pdf", ⟨List.range 101⟩⟩
      ⟨none, none⟩ (by decide)⟩

/-! ### Word to PDF (enhancedWordToPdf, fileProcessors.js lines 287-361) -/

/-- A raw input file for the Word→PDF tool: name plus raw byte content
(the values of the Uint8Array view of the array buffer). -/
structure ByteFile where
  name : String
  bytes : List Nat
deriving Repr, DecidableEq

/-- Split a character list on a separator character, mirroring the
behaviour of splitting a string with a single-character separator (the
result is always non-empty; `headI`/`tail` extend the current first
component). -/
def splitOnChar (sep : Char) : List Char → List (List Char)
  | [] => [[]]
  | c :: rest =>
    if c = sep then [] :: splitOnChar sep rest
    else (c :: (splitOnChar sep rest).headI) :: (splitOnChar sep rest).tail

/-- Model of the extension extraction in `enhancedWordToPdf`:
`(file.name || "").match(/\.([^.]+)$/)` followed by toLowerCase — the
non-empty run of non-dot characters after the last dot, lowercased; empty
when the name contains no dot or ends in a dot. -/
def getExt (name : String) : String :=
  match (splitOnChar '.' name.data).reverse with
  | [] => ""
  | [_] => ""
  | last :: _ :: _ => if last = [] then "" else String.mk (last.map Char.toLower)

/-- Model of the zip signature probe in `enhancedWordToPdf`: the first two
bytes of the file must be 0x50 0x4b ("PK"). -/
def isZipHeader (bytes : List Nat) : Bool :=
  match bytes with
  | b0 :: b1 :: _ => b0 == 0x50 && b1 == 0x4b
  | _ => false

/-- Model of the catch-all rethrow pattern `throw new Error(prefixText + err.message)`
used by the processors. -/
def rethrow {X : Type} (pre : String) : Except String X → Except String X
  | .ok r => .ok r
  | .error e => .error (pre ++ e)

/-- Body of `enhancedWordToPdf` inside its try block: reject the input when
it neither carries a .docx extension nor starts with the zip signature;
otherwise run the mammoth conversion (abstract collaborator `convert`) and
feed its output to `worldClassHtmlToPdf` (abstract collaborator `render`).
The message-specific rewrapping of mammoth central-directory errors maps one
error string to another and is not modelled separately. -/
def wordToPdfValidated {γ δ : Type} (convert : ByteFile → Except String γ)
    (render : γ → Except String (List δ)) (file : ByteFile) : Except String (List δ) :=
  if getExt file.name ≠ "docx" ∧ isZipHeader file.bytes = false then
    .error "Only .docx files supported. Please convert .doc files to .docx first."
  else
    match convert file with
    | .error e => .error e
    | .ok html => render html

/-- Model of `enhancedWordToPdf` (lines 287-361): validation and conversion
wrapped in the catch-all rethrow. -/
def enhancedWordToPdf {γ δ : Type} (convert : ByteFile → Except String γ)
    (render : γ → Except String (List δ)) (file : ByteFile) : Except String (List δ) :=
  rethrow "Enhanced Word→PDF failed: " (wordToPdfValidated convert render file)

/-- C9 counterexample: a file named notes.docx whose content is plain text
("hello", no zip signature, hence not a .docx document) is not rejected up
front: with a converter and renderer that succeed, the run completes with
output, so the up-front rejection claimed for every non-.docx content does
not happen. -/
theorem word_to_pdf_content_counterexample :
    isZipHeader [0x68, 0x65, 0x6c, 0x6c, 0x6f] = false ∧
    enhancedWordToPdf (fun _ => .ok (0 : Nat)) (fun _ => .ok [(0 : Nat)])
        ⟨"notes.docx", [0x68, 0x65, 0x6c, 0x6c, 0x6f]⟩ = .ok [0] := by
  exact ⟨rfl, by decide⟩

/-- C9 amended: the Word→PDF tool rejects up front exactly those inputs that
neither carry a .docx extension nor begin with the zip signature 0x50 0x4b —
in particular every legacy binary .doc file — failing before the converter
or renderer run (the result is this error for every behaviour of both
collaborators), with no output produced.  A file whose name ends in .docx
but whose content is not zip passes this up-front check. -/
theorem word_to_pdf_upfront_reject {γ δ : Type} (convert : ByteFile → Except String γ)
    (render : γ → Except String (List δ)) (file : ByteFile)
    (hext : getExt file.name ≠ "docx") (hzip : isZipHeader file.bytes = false) :
    enhancedWordToPdf convert render file =
      .error ("Enhanced Word→PDF failed: " ++
        "Only .docx files supported. Please convert .doc files to .docx first.") := by
  unfold enhancedWordToPdf wordToPdfValidated
  rw [if_pos ⟨hext, hzip⟩]
  rfl

/-- C9 witness: a legacy binary .doc file (extension .doc, OLE compound-file
signature D0 CF 11 E0) is rejected up front. -/
theorem word_to_pdf_upfront_reject_witness :
    getExt "old.doc" ≠ "docx" ∧ isZipHeader [0xD0, 0xCF, 0x11, 0xE0] = false ∧
    enhancedWordToPdf (fun _ => .ok (0 : Nat)) (fun _ => .ok [(0 : Nat)])
        ⟨"old.doc", [0xD0, 0xCF, 0x11, 0xE0]⟩ =
      .error ("Enhanced Word→PDF failed: " ++
        "Only .docx files supported. Please convert .doc files to .docx first.") :=
  ⟨by decide, by decide,
    word_to_pdf_upfront_reject (fun _ => .ok (0 : Nat)) (fun _ => .ok [(0 : Nat)])
      ⟨"old.doc", [0xD0, 0xCF, 0x11, 0xE0]⟩ (by decide) (by decide)⟩

/-! ### Structured text extraction (groupTextByBlocks, fileProcessors.js
lines 236-263) -/

/-- A text run handed to `groupTextByBlocks`: the string, its position in
the PDF bottom-left-origin coordinate system, and its font size. -/
structure TextItem where
  text : String
  x : ℚ
  y : ℚ
  fontSize : ℚ
deriving Repr, DecidableEq

/-- Model of `textItems.sort((a, b) => (pageHeight - b.y) - (pageHeight - a.y))`:
a stable sort placing `a` before `b` when the comparator is nonpositive.
The comparator expression simplifies to `a.y - b.y`, so this sorts by
ascending y, which in the bottom-left-origin coordinate system means bottom
of the page first. -/
def sortByY (pageHeight : ℚ) (items : List TextItem) : List TextItem :=
  items.insertionSort (fun a b => (pageHeight - b.y) - (pageHeight - a.y) ≤ 0)

/-- Model of `currentBlock.sort((a, b) => a.x - b.x)`: stable sort of a block
by ascending x. -/
def sortByX (block : List TextItem) : List TextItem :=
  block.insertionSort (fun a b => a.x - b.x ≤ 0)

/-- One iteration of the grouping loop of `groupTextByBlocks`
(lines 246-257): state is (finished blocks, current block, lastY).  The item
joins the current block when there is no previous y or the vertical delta
from the previous item is at most half the incoming item's font size;
otherwise, when the current block is non-empty, the block is flushed sorted
by x and a new block starts with the item.  `lastY` is updated on every
iteration. -/
def groupStep (st : List (List TextItem) × List TextItem × Option ℚ) (item : TextItem) :
    List (List TextItem) × List TextItem × Option ℚ :=
  match st with
  | (blocks, cur, lastY) =>
    match lastY with
    | none => (blocks, cur ++ [item], some item.y)
    | some ly =>
      if |item.y - ly| ≤ item.fontSize * (1 / 2) then
        (blocks, cur ++ [item], some item.y)
      else if cur ≠ [] then
        (blocks ++ [sortByX cur], [item], some item.y)
      else
        (blocks, cur, some item.y)

/-- Model of `groupTextByBlocks(textItems, pageHeight)` (lines 236-263):
return no blocks for no items; otherwise sort the items with the y
comparator, run the grouping loop, and flush the final non-empty block. -/
def groupTextByBlocks (textItems : List TextItem) (pageHeight : ℚ) :
    List (List TextItem) :=
  if textItems = [] then []
  else
    match (sortByY pageHeight textItems).foldl groupStep ([], [], none) with
    | (blocks, cur, _) => if cur ≠ [] then blocks ++ [sortByX cur] else blocks

/-- C7: evaluation at the failing input.  Two runs, one at the top of the
page (y = 700) and one at the bottom (y = 10), come back bottom-first:
the comparator `(pageHeight - b.y) - (pageHeight - a.y)` equals `a.y - b.y`,
an ascending-y sort, while both the specification and the code's own
comment (`Sort by Y position (top to bottom)`) require descending y, top of
page first. -/
theorem groupTextByBlocks_sorts_bottom_first :
    groupTextByBlocks [⟨"top", 0, 700, 12⟩, ⟨"bottom", 0, 10, 12⟩] 800 =
      [[⟨"bottom", 0, 10, 12⟩], [⟨"top", 0, 700, 12⟩]] ∧
    ([[⟨"bottom", 0, 10, 12⟩], [⟨"top", 0, 700, 12⟩]] : List (List TextItem)) ≠
      [[⟨"top", 0, 700, 12⟩], [⟨"bottom", 0, 10, 12⟩]] := by
  constructor
  · norm_num [groupTextByBlocks, sortByY, sortByX, groupStep, List.insertionSort,
      List.orderedInsert, List.foldl]
    intro h
    exact absurd h (by simp)
  · simp [TextItem.mk.injEq]

/-! ### Text layout engine (intelligentTextWrap, fileProcessors.js
lines 67-108)

Strings are represented by their character lists (String.data), which keeps
every definition kernel-computable; widths and font sizes are rationals.
The font collaborator is the abstract `widthOf`, returning `none` when
`widthOfTextAtSize` would throw: the main loop catches that and substitutes
the estimate `length * fontSize * 0.55`, while the character fallback loop
has no catch, so a `none` there aborts the whole computation. -/

/-- Model of the word sequence of a piece of text: split on single spaces
(as `text.split(' ')` does) and keep the non-empty words. -/
def wordsOf (l : List Char) : List (List Char) :=
  (splitOnChar ' ' l).filter (· ≠ [])

/-- Join lines with single spaces, as the claim concatenates the returned
lines. -/
def joinSpace : List (List Char) → List Char
  | [] => []
  | [l] => l
  | l :: l2 :: L => l ++ ' ' :: joinSpace (l2 :: L)

/-- The width estimate `testLine.length * fontSize * 0.55` used when the
font collaborator throws, and in the long-word test. -/
def estimateW (s : List Char) (fontSize : ℚ) : ℚ :=
  (s.length : ℚ) * fontSize * (55 / 100)

/-- Model of the character-by-character fallback loop of
`intelligentTextWrap` (lines 88-100): accumulate characters while the
measured width fits, flushing the accumulated piece when the next character
overflows.  A measurement failure (`none`) propagates, since this loop has
no try/catch. -/
def charFallback (widthOf : List Char → ℚ → Option ℚ) (maxWidth fontSize : ℚ) :
    List Char → List (List Char) → List Char → Option (List (List Char) × List Char)
  | [], lines, piece => some (lines, piece)
  | c :: cs, lines, piece =>
    match widthOf (piece ++ [c]) fontSize with
    | none => none
    | some pw =>
      if pw ≤ maxWidth then charFallback widthOf maxWidth fontSize cs lines (piece ++ [c])
      else if piece ≠ [] then charFallback widthOf maxWidth fontSize cs (lines ++ [piece]) [c]
      else charFallback widthOf maxWidth fontSize cs lines [c]

/-- Model of the word loop of `intelligentTextWrap` (lines 72-105): state is
(flushed lines, current line).  A word joins the current line while the
measured (or, on measurement failure, estimated) width of the tentative line
fits; on overflow the current line is flushed and the word either goes
through the character fallback (when its estimated width alone exceeds
maxWidth) or starts the new current line. -/
def wrapWords (widthOf : List Char → ℚ → Option ℚ) (maxWidth fontSize : ℚ) :
    List (List Char) → List (List Char) → List Char →
    Option (List (List Char) × List Char)
  | [], lines, currentLine => some (lines, currentLine)
  | word :: ws, lines, currentLine =>
    let testLine := if currentLine = [] then word else currentLine ++ ' ' :: word
    let textWidth := (widthOf testLine fontSize).getD (estimateW testLine fontSize)
    if textWidth ≤ maxWidth then
      wrapWords widthOf maxWidth fontSize ws lines testLine
    else
      let lines1 := if currentLine ≠ [] then lines ++ [currentLine] else lines
      if estimateW word fontSize > maxWidth then
        match charFallback widthOf maxWidth fontSize word lines1 [] with
        | none => none
        | some st => wrapWords widthOf maxWidth fontSize ws st.1 st.2
      else
        wrapWords widthOf maxWidth fontSize ws lines1 word

/-- Model of `intelligentTextWrap(text, maxWidth, font, fontSize)`
(lines 67-108): split the text on spaces, run the word loop from an empty
state, flush the final current line, and return `[""]` in place of an empty
line list. -/
def intelligentTextWrap (text : List Char) (maxWidth : ℚ)
    (widthOf : List Char → ℚ → Option ℚ) (fontSize : ℚ) :
    Option (List (List Char)) :=
  match wrapWords widthOf maxWidth fontSize (splitOnChar ' ' text) [] [] with
  | none => none
  | some (lines, currentLine) =>
    let lines2 := if currentLine ≠ [] then lines ++ [currentLine] else lines
    some (if lines2 = [] then [[]] else lines2)

theorem splitOnChar_ne_nil (sep : Char) (l : List Char) : splitOnChar sep l ≠ [] := by
  induction l with
  | nil => simp [splitOnChar]
  | cons c rest ih => by_cases hc : c = sep <;> simp [splitOnChar, hc]

theorem splitOnChar_append (sep : Char) (a b : List Char) :
    splitOnChar sep (a ++ sep :: b) = splitOnChar sep a ++ splitOnChar sep b := by
  induction a with
  | nil => simp [splitOnChar]
  | cons c a' ih =>
    by_cases hc : c = sep
    · simp [splitOnChar, hc, ih]
    · cases hsp : splitOnChar sep a' with
      | nil => exact absurd hsp (splitOnChar_ne_nil sep a')
      | cons w ws => simp [splitOnChar, hc, ih, hsp]

theorem splitOnChar_of_not_mem (sep : Char) (w : List Char) (h : sep ∉ w) :
    splitOnChar sep w = [w] := by
  induction w with
  | nil => rfl
  | cons c rest ih =>
    have hc : c ≠ sep := fun he => h (he ▸ List.mem_cons_self c rest)
    rw [splitOnChar, if_neg hc, ih (fun hm => h (List.mem_cons_of_mem c hm))]
    rfl

theorem not_mem_of_mem_splitOnChar (sep : Char) (l : List Char) :
    ∀ w ∈ splitOnChar sep l, sep ∉ w := by
  induction l with
  | nil =>
    intro w hw
    simp only [splitOnChar, List.mem_singleton] at hw
    simp [hw]
  | cons c rest ih =>
    intro w hw
    by_cases hc : c = sep
    · rw [splitOnChar, if_pos hc] at hw
      rcases List.mem_cons.mp hw with h1 | h2
      · simp [h1]
      · exact ih w h2
    · rw [splitOnChar, if_neg hc] at hw
      cases hsp : splitOnChar sep rest with
      | nil => exact absurd hsp (splitOnChar_ne_nil sep rest)
      | cons w' ws' =>
        rw [hsp] at hw
        rcases List.mem_cons.mp hw with h1 | h2
        · subst h1
          intro hm
          rcases List.mem_cons.mp hm with h3 | h4
          · exact hc h3.symm
          · exact ih w' (hsp ▸ List.mem_cons_self w' ws') h4
        · exact ih w (hsp ▸ List.mem_cons_of_mem w' h2)

theorem wordsOf_append_space (a b : List Char) :
    wordsOf (a ++ ' ' :: b) = wordsOf a ++ wordsOf b := by
  unfold wordsOf
  rw [splitOnChar_append, List.filter_append]

theorem wordsOf_no_space (w : List Char) (h : ' ' ∉ w) :
    wordsOf w = List.filter (fun x => x ≠ []) [w] := by
  unfold wordsOf
  rw [splitOnChar_of_not_mem _ _ h]

theorem wordsOf_nil : wordsOf [] = [] := rfl

theorem wordsOf_joinSpace (L : List (List Char)) :
    wordsOf (joinSpace L) = (L.map wordsOf).flatten := by
  induction L with
  | nil => rfl
  | cons l L' ih =>
    cases L' with
    | nil => simp [joinSpace]
    | cons m M =>
      rw [show joinSpace (l :: m :: M) = l ++ ' ' :: joinSpace (m :: M) from rfl,
        wordsOf_append_space, ih]
      simp

theorem flatten_wordsOf_of_no_space (L : List (List Char)) (h : ∀ w ∈ L, ' ' ∉ w) :
    (L.map wordsOf).flatten = L.filter (fun x => x ≠ []) := by
  induction L with
  | nil => rfl
  | cons w L' ih =>
    rw [List.map_cons, List.flatten_cons, ih (fun x hx => h x (List.mem_cons_of_mem w hx)),
      wordsOf_no_space w (h w (List.mem_cons_self w L')), List.filter_cons, List.filter_cons]
    by_cases hw : w = [] <;> simp [hw]

theorem flatten_map_concat (X : List (List Char)) (y : List Char) :
    ((X ++ [y]).map wordsOf).flatten = (X.map wordsOf).flatten ++ wordsOf y := by
  simp

/-- The word sequence carried by the wrap state (flushed lines plus the
current line), used as the loop invariant for the word-preservation
theorem. -/
theorem wrapWords_no_fallback (widthOf : List Char → ℚ → Option ℚ) (maxWidth fontSize : ℚ)
    (ws : List (List Char)) (hws : ∀ w ∈ ws, estimateW w fontSize ≤ maxWidth) :
    ∀ lines currentLine,
      ∃ lines' cur', wrapWords widthOf maxWidth fontSize ws lines currentLine =
          some (lines', cur') ∧
        ((lines' ++ [cur']).map wordsOf).flatten =
          ((lines ++ [currentLine]).map wordsOf).flatten ++ (ws.map wordsOf).flatten := by
  induction ws with
  | nil =>
    intro lines currentLine
    exact ⟨lines, currentLine, rfl, by simp⟩
  | cons word ws' ih =>
    intro lines currentLine
    have hword : estimateW word fontSize ≤ maxWidth := hws word (List.mem_cons_self word ws')
    have hws' : ∀ w ∈ ws', estimateW w fontSize ≤ maxWidth :=
      fun w hw => hws w (List.mem_cons_of_mem word hw)
    have htest : wordsOf (if currentLine = [] then word else currentLine ++ ' ' :: word) =
        wordsOf currentLine ++ wordsOf word := by
      by_cases hcl : currentLine = []
      · rw [if_pos hcl, hcl]
        rfl
      · rw [if_neg hcl, wordsOf_append_space]
    simp only [wrapWords]
    by_cases hfit :
        ((widthOf (if currentLine = [] then word else currentLine ++ ' ' :: word) fontSize).getD
          (estimateW (if currentLine = [] then word else currentLine ++ ' ' :: word) fontSize)) ≤
        maxWidth
    · rw [if_pos hfit]
      obtain ⟨lines', cur', hrun, hinv⟩ := ih hws' lines
        (if currentLine = [] then word else currentLine ++ ' ' :: word)
      refine ⟨lines', cur', hrun, ?_⟩
      rw [hinv]
      simp only [List.map_append, List.flatten_append, List.map_cons, List.flatten_cons,
        List.map_nil, List.flatten_nil, List.append_nil, htest, List.append_assoc]
    · rw [if_neg hfit, if_neg (not_lt.mpr hword)]
      obtain ⟨lines', cur', hrun, hinv⟩ := ih hws'
        (if currentLine ≠ [] then lines ++ [currentLine] else lines) word
      refine ⟨lines', cur', hrun, ?_⟩
      rw [hinv]
      by_cases hcl : currentLine = []
      · rw [if_neg (fun hne => hne hcl), hcl]
        simp only [List.map_append, List.flatten_append, List.map_cons, List.flatten_cons,
          List.map_nil, List.flatten_nil, List.append_nil, wordsOf_nil, List.append_assoc]
      · rw [if_pos hcl]
        simp only [List.map_append, List.flatten_append, List.map_cons, List.flatten_cons,
          List.map_nil, List.flatten_nil, List.append_nil, List.append_assoc]

/-- C3 amended: for every text, width function, positive width bound and
font size such that no word of the text triggers the long-word fallback
(that is, every word's estimated width `length * fontSize * 0.55` is within
maxWidth), the wrap succeeds, returns a non-empty sequence of lines, and
concatenating the returned lines with single spaces reproduces the input's
word sequence exactly.  (When the fallback does trigger, the long word is
split into width-bounded pieces on separate lines, so the word sequence is
not preserved: see the counterexample.) -/
theorem wrap_preserves_words (text : List Char) (maxWidth : ℚ)
    (widthOf : List Char → ℚ → Option ℚ) (fontSize : ℚ)
    (hfall : ∀ w ∈ splitOnChar ' ' text, estimateW w fontSize ≤ maxWidth) :
    ∃ lines, intelligentTextWrap text maxWidth widthOf fontSize = some lines ∧
      lines ≠ [] ∧ wordsOf (joinSpace lines) = wordsOf text := by
  obtain ⟨lines', cur', hwrap, hinv⟩ := wrapWords_no_fallback widthOf maxWidth fontSize
    (splitOnChar ' ' text) hfall [] []
  have hsplit : ((splitOnChar ' ' text).map wordsOf).flatten = wordsOf text :=
    flatten_wordsOf_of_no_space _ (not_mem_of_mem_splitOnChar ' ' text)
  have hbase : ((([] : List (List Char)) ++ [[]]).map wordsOf).flatten = [] := rfl
  rw [hbase, List.nil_append, hsplit] at hinv
  set lines2 := if cur' ≠ [] then lines' ++ [cur'] else lines' with hlines2
  refine ⟨if lines2 = [] then [[]] else lines2, ?_, ?_, ?_⟩
  · rw [intelligentTextWrap, hwrap]
  · by_cases h2 : lines2 = [] <;> simp [h2]
  · have hflat : (lines2.map wordsOf).flatten = ((lines' ++ [cur']).map wordsOf).flatten := by
      rw [hlines2]
      by_cases hcur : cur' = []
      · rw [if_neg (fun hne => hne hcur), flatten_map_concat, hcur, wordsOf_nil]
        simp
      · rw [if_pos hcur]
    by_cases h2 : lines2 = []
    · rw [if_pos h2, wordsOf_joinSpace, ← hinv, ← hflat, h2]
      rfl
    · rw [if_neg h2, wordsOf_joinSpace, hflat, hinv]

/-- C3 witness: the two-word text "hi yo" wrapped at a generous width with a
well-behaved width function keeps its word sequence. -/
theorem wrap_preserves_words_witness :
    (∀ w ∈ splitOnChar ' ' ['h', 'i', ' ', 'y', 'o'], estimateW w 1 ≤ 100) ∧
    ∃ lines,
      intelligentTextWrap ['h', 'i', ' ', 'y', 'o'] 100
          (fun s q => some ((s.length : ℚ) * q)) 1 = some lines ∧
        lines ≠ [] ∧ wordsOf (joinSpace lines) = wordsOf ['h', 'i', ' ', 'y', 'o'] :=
  have hyp : ∀ w ∈ splitOnChar ' ' ['h', 'i', ' ', 'y', 'o'], estimateW w 1 ≤ 100 := by
    have hs : splitOnChar ' ' ['h', 'i', ' ', 'y', 'o'] = [['h', 'i'], ['y', 'o']] := by decide
    rw [hs]
    intro w hw
    rcases List.mem_cons.mp hw with h1 | hw2
    · rw [h1]
      norm_num [estimateW]
    · rcases List.mem_cons.mp hw2 with h2 | hw3
      · rw [h2]
        norm_num [estimateW]
      · simp at hw3
  ⟨hyp, wrap_preserves_words ['h', 'i', ' ', 'y', 'o'] 100
    (fun s q => some ((s.length : ℚ) * q)) 1 hyp⟩

/-- C3 counterexample: the single word "abcd" at maxWidth 2 with the width
function mapping a string to its length (fontSize 1) triggers the long-word
fallback (estimate 2.2 > 2) and comes back as the two lines "ab", "cd":
joining the returned lines with single spaces yields the word sequence
["ab", "cd"], not the input's word sequence ["abcd"], so the fallback does
not preserve the word sequence. -/
theorem wrap_fallback_splits_word_counterexample :
    intelligentTextWrap ['a', 'b', 'c', 'd'] 2 (fun s q => some ((s.length : ℚ) * q)) 1 =
      some [['a', 'b'], ['c', 'd']] ∧
    wordsOf (joinSpace [['a', 'b'], ['c', 'd']]) ≠ wordsOf ['a', 'b', 'c', 'd'] := by
  constructor
  · have hs : splitOnChar ' ' ['a', 'b', 'c', 'd'] = [['a', 'b', 'c', 'd']] := by decide
    rw [intelligentTextWrap, hs]
    norm_num [wrapWords, charFallback, estimateW]
    simp
  · decide

/-! ### Progress reporting (the updateProgress call sequences of
processFiles and the per-tool processors)

The percentage arguments of every `updateProgress(percentage, text)` call
depend only on loop counts (file count, page count, range count) and one
boolean option, never on page contents or collaborator outputs, so the full
success-path emission sequence of each tool is a function of those counts.
A failing run stops mid-sequence, so its emissions are a prefix of the
success trace. -/

/-- Model of JavaScript `Math.round`: round half away from zero; all
arguments here are nonnegative, where it is floor of the value plus one
half. -/
def jsRound (q : ℚ) : ℤ := ⌊q + 1 / 2⌋

/-- The loop emission formula `base + Math.round(p / total * span)` shared by
the per-item progress updates of the processing loops. -/
def loopEmit (base : ℚ) (span : ℤ) (total : ℕ) (p : ℕ) : ℚ :=
  base + (jsRound ((p : ℚ) / (total : ℚ) * (span : ℚ)) : ℚ)

/-- The shape of one pipeline run, as dispatched by `processFiles`: the tool
together with the loop count driving its progress emissions.  The split tool
has one constructor per branch of `enhancedSplitPdf`; compression emits one
extra update when metadata removal is on. -/
inductive ToolRun where
  | mergePdf (fileCount : Nat)
  | splitPdfPages (pageCount : Nat)
  | splitPdfRange (rangeCount : Nat)
  | compressPdf (removeMetadata : Bool)
  | pdfToImages (pageCount : Nat)
  | pdfToWord (pageCount : Nat)
  | wordToPdf
deriving Repr, DecidableEq

/-- The success-path progress percentages each tool reports, in order,
transcribed from the `updateProgress` calls of fileProcessors.js:
merge lines 670/683/697/704, split lines 719/743/764/784, compress
lines 793/803/814/824/837/847, images lines 863/867/890/950, PDF→Word
lines 136/140/147/176/180/221, Word→PDF lines 288/303/353 and
365/455/631/649/652. -/
def progressTrace : ToolRun → List ℚ
  | .mergePdf n => [5] ++ (List.range n).map (loopEmit 5 80 n) ++ [90] ++ [100]
  | .splitPdfPages pages => [5] ++ (List.range' 1 pages).map (loopEmit 10 80 pages) ++ [100]
  | .splitPdfRange k => [5] ++ (List.range k).map (loopEmit 10 70 k) ++ [100]
  | .compressPdf rm => [5, 20] ++ (if rm then [40] else []) ++ [60, 80] ++ [100]
  | .pdfToImages pages => [5, 10] ++ (List.range' 1 pages).map (loopEmit 10 80 pages) ++ [100]
  | .pdfToWord pages =>
    [5, 15, 25] ++ (List.range' 1 pages).map (loopEmit 25 50 pages) ++ [80] ++ [100]
  | .wordToPdf => [5, 15, 35, 40, 50, 70, 90] ++ [100]

theorem jsRound_mono {a b : ℚ} (h : a ≤ b) : jsRound a ≤ jsRound b :=
  Int.floor_le_floor (by linarith)

theorem jsRound_nonneg {a : ℚ} (h : 0 ≤ a) : 0 ≤ jsRound a :=
  Int.le_floor.mpr (by push_cast; linarith)

theorem jsRound_le_int {a : ℚ} {m : ℤ} (h : a ≤ (m : ℚ)) : jsRound a ≤ m := by
  have hlt : jsRound a < m + 1 := Int.floor_lt.mpr (by push_cast; linarith)
  omega

theorem div_cast_mono {i j n : ℕ} (hij : i ≤ j) : (i : ℚ) / (n : ℚ) ≤ (j : ℚ) / (n : ℚ) := by
  rcases Nat.eq_zero_or_pos n with hn | hn
  · simp [hn]
  · have hn' : (0 : ℚ) < (n : ℚ) := by exact_mod_cast hn
    exact (div_le_div_iff_of_pos_right hn').mpr (by exact_mod_cast hij)

theorem loopEmit_mono (base : ℚ) (span : ℤ) (total : ℕ) (hspan : 0 ≤ span) {i j : ℕ}
    (hij : i ≤ j) : loopEmit base span total i ≤ loopEmit base span total j := by
  unfold loopEmit
  have harg : (i : ℚ) / (total : ℚ) * (span : ℚ) ≤ (j : ℚ) / (total : ℚ) * (span : ℚ) :=
    mul_le_mul_of_nonneg_right (div_cast_mono hij) (by exact_mod_cast hspan)
  have := jsRound_mono harg
  have : ((jsRound ((i : ℚ) / (total : ℚ) * (span : ℚ)) : ℤ) : ℚ) ≤
      ((jsRound ((j : ℚ) / (total : ℚ) * (span : ℚ)) : ℤ) : ℚ) := by exact_mod_cast this
  linarith

theorem loopEmit_lower (base : ℚ) (span : ℤ) (total : ℕ) (hspan : 0 ≤ span) (p : ℕ) :
    base ≤ loopEmit base span total p := by
  unfold loopEmit
  have harg : (0 : ℚ) ≤ (p : ℚ) / (total : ℚ) * (span : ℚ) := by positivity
  have := jsRound_nonneg harg
  have : (0 : ℚ) ≤ ((jsRound ((p : ℚ) / (total : ℚ) * (span : ℚ)) : ℤ) : ℚ) := by
    exact_mod_cast this
  linarith

theorem loopEmit_upper (base : ℚ) (span : ℤ) (total : ℕ) (hspan : 0 ≤ span) {p : ℕ}
    (hp : p ≤ total) : loopEmit base span total p ≤ base + (span : ℚ) := by
  unfold loopEmit
  have hdiv : (p : ℚ) / (total : ℚ) ≤ 1 := by
    rcases Nat.eq_zero_or_pos total with ht | ht
    · simp [ht]
    · have ht' : (0 : ℚ) < (total : ℚ) := by exact_mod_cast ht
      exact (div_le_one ht').mpr (by exact_mod_cast hp)
  have harg : (p : ℚ) / (total : ℚ) * (span : ℚ) ≤ (span : ℚ) :=
    mul_le_of_le_one_left (by exact_mod_cast hspan) hdiv
  have := jsRound_le_int harg
  have : ((jsRound ((p : ℚ) / (total : ℚ) * (span : ℚ)) : ℤ) : ℚ) ≤ (span : ℚ) := by
    exact_mod_cast this
  linarith

theorem mem_of_mem_getLast? {α : Type} {l : List α} {x : α} (h : x ∈ l.getLast?) : x ∈ l := by
  obtain ⟨hne, rfl⟩ := List.mem_getLast?_eq_getLast h
  exact List.getLast_mem hne

theorem chain'_le_range (n : ℕ) : List.Chain' (· ≤ ·) (List.range n) :=
  ((List.pairwise_lt_range n).imp le_of_lt).chain'

theorem chain'_le_range' (s n : ℕ) : List.Chain' (· ≤ ·) (List.range' s n) :=
  ((List.pairwise_lt_range' s n).imp le_of_lt).chain'

theorem chain'_map_le (f : ℕ → ℚ) (hf : ∀ i j, i ≤ j → f i ≤ f j) (l : List ℕ)
    (hl : List.Chain' (· ≤ ·) l) : List.Chain' (· ≤ ·) (l.map f) := by
  rw [List.chain'_map]
  exact hl.imp (fun a b hab => hf a b hab)

/-- Gluing lemma for progress traces of shape prefix ++ loop emissions ++
suffix, with the loop emissions bounded between `lo` and `hi`. -/
theorem chain'_glue (pre mid post : List ℚ) (lo hi : ℚ)
    (hpre : List.Chain' (· ≤ ·) pre) (hmid : List.Chain' (· ≤ ·) mid)
    (hpost : List.Chain' (· ≤ ·) post)
    (hlo : ∀ x ∈ mid, lo ≤ x) (hhi : ∀ x ∈ mid, x ≤ hi)
    (hpre_last : ∀ x ∈ pre.getLast?, x ≤ lo)
    (hpost_head : ∀ y ∈ post.head?, hi ≤ y)
    (hlohi : lo ≤ hi) :
    List.Chain' (· ≤ ·) (pre ++ mid ++ post) := by
  rw [List.append_assoc, List.chain'_append]
  refine ⟨hpre, ?_, ?_⟩
  · rw [List.chain'_append]
    refine ⟨hmid, hpost, ?_⟩
    intro x hx y hy
    calc x ≤ hi := hhi x (mem_of_mem_getLast? hx)
    _ ≤ y := hpost_head y hy
  · intro x hx y hy
    rw [List.head?_append] at hy
    cases hmidc : mid.head? with
    | some m =>
      rw [hmidc] at hy
      have hym : m = y := by simpa [Option.mem_def] using hy
      subst hym
      calc x ≤ lo := hpre_last x hx
      _ ≤ m := hlo m (List.mem_of_mem_head? (by rw [hmidc]; rfl))
    | none =>
      rw [hmidc] at hy
      simp only [Option.or, Option.mem_def] at hy
      calc x ≤ lo := hpre_last x hx
      _ ≤ hi := hlohi
      _ ≤ y := hpost_head y hy

/-- Skeleton shared by the traces: a sorted prefix, the loop emissions
bounded between `lo` and `hi`, a sorted below-100 tail, and the final 100. -/
theorem progress_shape (pre mid tail : List ℚ) (lo hi : ℚ)
    (hpre : List.Chain' (· ≤ ·) pre)
    (hmid : List.Chain' (· ≤ ·) mid)
    (htail : List.Chain' (· ≤ ·) (tail ++ [100]))
    (hlo : ∀ x ∈ mid, lo ≤ x) (hhi : ∀ x ∈ mid, x ≤ hi)
    (hpre_last : ∀ x ∈ pre.getLast?, x ≤ lo)
    (htail_head : ∀ y ∈ (tail ++ [100]).head?, hi ≤ y)
    (hlohi : lo ≤ hi) (hhi100 : hi < 100)
    (hpre100 : ∀ x ∈ pre, x < 100) (htail100 : ∀ x ∈ tail, x < 100) :
    List.Chain' (· ≤ ·) (pre ++ mid ++ tail ++ [100]) ∧
    (pre ++ mid ++ tail ++ [100]).getLast? = some 100 ∧
    ∀ x ∈ (pre ++ mid ++ tail ++ [100]).dropLast, x < 100 := by
  refine ⟨?_, List.getLast?_concat _, ?_⟩
  · have h1 : List.Chain' (· ≤ ·) (pre ++ mid ++ (tail ++ [100])) :=
      chain'_glue pre mid (tail ++ [100]) lo hi hpre hmid htail hlo hhi hpre_last
        htail_head hlohi
    have heq : pre ++ mid ++ tail ++ [100] = pre ++ mid ++ (tail ++ [100]) := by
      simp [List.append_assoc]
    rw [heq]
    exact h1
  · rw [List.dropLast_concat]
    intro x hx
    rcases List.mem_append.mp hx with hx1 | hx2
    · rcases List.mem_append.mp hx1 with hx3 | hx4
      · exact hpre100 x hx3
      · exact lt_of_le_of_lt (hhi x hx4) hhi100
    · exact htail100 x hx2

/-- C6: within every run of every tool, the reported progress percentages
are non-decreasing, and 100 is reported exactly once, as the final emission
of the successful run: every earlier emission is strictly below 100, so a
failing run (whose emissions are a prefix of the trace cut before the end)
never reports 100. -/
theorem progress_monotone_terminal (run : ToolRun) :
    List.Chain' (· ≤ ·) (progressTrace run) ∧
    (progressTrace run).getLast? = some 100 ∧
    ∀ x ∈ (progressTrace run).dropLast, x < 100 := by
  cases run with
  | mergePdf n =>
    exact progress_shape [5] ((List.range n).map (loopEmit 5 80 n)) [90] 5 85
      (List.chain'_singleton 5)
      (chain'_map_le _ (fun i j hij => loopEmit_mono 5 80 n (by norm_num) hij) _
        (chain'_le_range n))
      (by norm_num [List.chain'_cons, List.chain'_singleton])
      (fun x hx => by
        obtain ⟨i, hi, rfl⟩ := List.mem_map.mp hx
        exact loopEmit_lower 5 80 n (by norm_num) i)
      (fun x hx => by
        obtain ⟨i, hi, rfl⟩ := List.mem_map.mp hx
        have h := loopEmit_upper 5 80 n (by norm_num) (le_of_lt (List.mem_range.mp hi))
        push_cast at h
        linarith)
      (fun x hx => by
        simp only [List.getLast?_singleton, Option.mem_def, Option.some.injEq] at hx
        subst hx
        norm_num)
      (fun y hy => by
        simp only [List.cons_append, List.head?_cons, Option.mem_def, Option.some.injEq] at hy
        subst hy
        norm_num)
      (by norm_num) (by norm_num)
      (fun x hx => by
        simp only [List.mem_singleton] at hx
        subst hx
        norm_num)
      (fun x hx => by
        simp only [List.mem_singleton] at hx
        subst hx
        norm_num)
  | splitPdfPages pages =>
    have h := progress_shape [5] ((List.range' 1 pages).map (loopEmit 10 80 pages)) [] 10 90
      (List.chain'_singleton 5)
      (chain'_map_le _ (fun i j hij => loopEmit_mono 10 80 pages (by norm_num) hij) _
        (chain'_le_range' 1 pages))
      (by norm_num [List.chain'_singleton])
      (fun x hx => by
        obtain ⟨i, hi, rfl⟩ := List.mem_map.mp hx
        exact loopEmit_lower 10 80 pages (by norm_num) i)
      (fun x hx => by
        obtain ⟨i, hi, rfl⟩ := List.mem_map.mp hx
        have hile : i ≤ pages := by
          have := (List.mem_range'_1.mp hi).2
          omega
        have h := loopEmit_upper 10 80 pages (by norm_num) hile
        push_cast at h
        linarith)
      (fun x hx => by
        simp only [List.getLast?_singleton, Option.mem_def, Option.some.injEq] at hx
        subst hx
        norm_num)
      (fun y hy => by
        simp only [List.nil_append, List.head?_cons, Option.mem_def, Option.some.injEq] at hy
        subst hy
        norm_num)
      (by norm_num) (by norm_num)
      (fun x hx => by
        simp only [List.mem_singleton] at hx
        subst hx
        norm_num)
      (fun x hx => by simp at hx)
    simpa only [progressTrace, List.append_nil] using h
  | splitPdfRange k =>
    have h := progress_shape [5] ((List.range k).map (loopEmit 10 70 k)) [] 10 80
      (List.chain'_singleton 5)
      (chain'_map_le _ (fun i j hij => loopEmit_mono 10 70 k (by norm_num) hij) _
        (chain'_le_range k))
      (by norm_num [List.chain'_singleton])
      (fun x hx => by
        obtain ⟨i, hi, rfl⟩ := List.mem_map.mp hx
        exact loopEmit_lower 10 70 k (by norm_num) i)
      (fun x hx => by
        obtain ⟨i, hi, rfl⟩ := List.mem_map.mp hx
        have h := loopEmit_upper 10 70 k (by norm_num) (le_of_lt (List.mem_range.mp hi))
        push_cast at h
        linarith)
      (fun x hx => by
        simp only [List.getLast?_singleton, Option.mem_def, Option.some.injEq] at hx
        subst hx
        norm_num)
      (fun y hy => by
        simp only [List.nil_append, List.head?_cons, Option.mem_def, Option.some.injEq] at hy
        subst hy
        norm_num)
      (by norm_num) (by norm_num)
      (fun x hx => by
        simp only [List.mem_singleton] at hx
        subst hx
        norm_num)
      (fun x hx => by simp at hx)
    simpa only [progressTrace, List.append_nil] using h
  | compressPdf rm =>
    cases rm <;>
      refine ⟨?_, ?_, ?_⟩ <;>
        simp only [progressTrace, if_true, if_false, List.cons_append, List.nil_append]
    · norm_num [List.chain'_cons, List.chain'_singleton]
    · rfl
    · intro x hx
      fin_cases hx <;> norm_num
    · norm_num [List.chain'_cons, List.chain'_singleton]
    · rfl
    · intro x hx
      fin_cases hx <;> norm_num
  | pdfToImages pages =>
    have h := progress_shape [5, 10] ((List.range' 1 pages).map (loopEmit 10 80 pages)) [] 10 90
      (by norm_num [List.chain'_cons, List.chain'_singleton])
      (chain'_map_le _ (fun i j hij => loopEmit_mono 10 80 pages (by norm_num) hij) _
        (chain'_le_range' 1 pages))
      (by norm_num [List.chain'_singleton])
      (fun x hx => by
        obtain ⟨i, hi, rfl⟩ := List.mem_map.mp hx
        exact loopEmit_lower 10 80 pages (by norm_num) i)
      (fun x hx => by
        obtain ⟨i, hi, rfl⟩ := List.mem_map.mp hx
        have hile : i ≤ pages := by
          have := (List.mem_range'_1.mp hi).2
          omega
        have h := loopEmit_upper 10 80 pages (by norm_num) hile
        push_cast at h
        linarith)
      (fun x hx => by
        simp only [List.getLast?_cons_cons, List.getLast?_singleton, Option.mem_def,
          Option.some.injEq] at hx
        subst hx
        norm_num)
      (fun y hy => by
        simp only [List.nil_append, List.head?_cons, Option.mem_def, Option.some.injEq] at hy
        subst hy
        norm_num)
      (by norm_num) (by norm_num)
      (fun x hx => by
        fin_cases hx <;> norm_num)
      (fun x hx => by simp at hx)
    simpa only [progressTrace, List.append_nil] using h
  | pdfToWord pages =>
    exact progress_shape [5, 15, 25] ((List.range' 1 pages).map (loopEmit 25 50 pages)) [80] 25 75
      (by norm_num [List.chain'_cons, List.chain'_singleton])
      (chain'_map_le _ (fun i j hij => loopEmit_mono 25 50 pages (by norm_num) hij) _
        (chain'_le_range' 1 pages))
      (by norm_num [List.chain'_cons, List.chain'_singleton])
      (fun x hx => by
        obtain ⟨i, hi, rfl⟩ := List.mem_map.mp hx
        exact loopEmit_lower 25 50 pages (by norm_num) i)
      (fun x hx => by
        obtain ⟨i, hi, rfl⟩ := List.mem_map.mp hx
        have hile : i ≤ pages := by
          have := (List.mem_range'_1.mp hi).2
          omega
        have h := loopEmit_upper 25 50 pages (by norm_num) hile
        push_cast at h
        linarith)
      (fun x hx => by
        simp only [List.getLast?_cons_cons, List.getLast?_singleton, Option.mem_def,
          Option.some.injEq] at hx
        subst hx
        norm_num)
      (fun y hy => by
        simp only [List.cons_append, List.head?_cons, Option.mem_def, Option.some.injEq] at hy
        subst hy
        norm_num)
      (by norm_num) (by norm_num)
      (fun x hx => by
        fin_cases hx <;> norm_num)
      (fun x hx => by
        simp only [List.mem_singleton] at hx
        subst hx
        norm_num)
  | wordToPdf =>
    refine ⟨?_, rfl, ?_⟩
    · norm_num [progressTrace, List.chain'_cons, List.chain'_singleton]
    · intro x hx
      simp only [progressTrace, List.cons_append, List.nil_append] at hx
      fin_cases hx <;> norm_num

end PdfTools
